import Mathlib

/-!
Verification development for the `dato` quorum coordination subsystem.

Shallow embedding conventions, used throughout this file:

* Opaque byte strings (namespaces, messages) are modelled as `List Nat`.
* Keccak256 digests are modelled by the free inductive `Digest`: the two
  digest constructions used by the code (`Record::digest`, over
  namespace ‖ timestamp ‖ message, and `Message::digest` /
  `Record::message_digest`, over namespace ‖ message) become two injective,
  mutually distinct constructors.  This is the ideal collision-free hash.
* `u128` timestamps are modelled as `Nat`.  The only arithmetic performed on
  them is `sort`, `+` and `/ 2` inside the median computation; the `u128`
  addition of the two central elements is modelled with its release-build
  wrapping semantics, an explicit `% 2 ^ 128` (a debug build aborts on the
  same overflow; either way the program does not return the mathematical
  sum there).
* BLS signatures are opaque `Nat`s.  The outcome of
  `verify_signature(sig, pubkey, digest)` for a reply is carried as a
  `Bool` field of the modelled reply, since the client code only ever
  branches on that boolean.  An `AggregateSignature` is modelled as the list
  of signatures folded into it (`from_signature` starts the list,
  `add_signature` appends).
* Rust's in-place stable `Vec::sort` on timestamps is modelled by
  `List.insertionSort (· ≤ ·)`; on a totally ordered element type any
  correct sort produces the same list, so the choice of algorithm is
  irrelevant.
* The client's asynchronous fan-out (`FuturesUnordered`) is modelled by an
  explicit list of `(validator index, reply)` events in completion order; a
  per-validator transport error or timeout (the future resolving to `None`)
  is the event `failure`, which — exactly as in the source
  `while let Some(Some((index, bytes)))` loop — terminates the collection
  loop when it is the next completed future.
-/

/-- Opaque byte strings: `alloy::primitives::Bytes`. -/
abbrev ByteStr : Type := List Nat

/-- Ideal model of the two Keccak256 digest shapes computed by the code
(`Record::digest` and `Message::digest` / `Record::message_digest`). -/
inductive Digest : Type where
  /-- `Keccak256(namespace ‖ timestamp_le ‖ message)` -/
  | recordDigest (ns : ByteStr) (timestamp : Nat) (message : ByteStr)
  /-- `Keccak256(namespace ‖ message)` -/
  | messageDigest (ns : ByteStr) (message : ByteStr)
  deriving DecidableEq, Repr

/-- `common.rs`: a signed record of a message with an associated timestamp. -/
structure Record : Type where
  timestamp : Nat
  message : ByteStr
  signature : Nat
  deriving DecidableEq, Repr

/-- `Record::digest`: digest of the namespace, message and timestamp. -/
def Record.digest (r : Record) (ns : ByteStr) : Digest :=
  .recordDigest ns r.timestamp r.message

/-- `Record::message_digest`: the inner message digest for the record. -/
def Record.message_digest (r : Record) (ns : ByteStr) : Digest :=
  .messageDigest ns r.message

/-- First value bound to a key in an association list, via `List.find?` —
this is the lookup idiom used by the modelled maps below. -/
def keyLookup {κ α : Type} [DecidableEq κ] (m : List (κ × α)) (k : κ) : Option α :=
  (m.find? (fun kv => kv.1 = k)).map (·.2)

theorem keyLookup_nil {κ α : Type} [DecidableEq κ] (k : κ) :
    keyLookup ([] : List (κ × α)) k = none := rfl

theorem keyLookup_cons {κ α : Type} [DecidableEq κ] (k k' : κ) (v : α) (m : List (κ × α)) :
    keyLookup ((k, v) :: m) k' = if k = k' then some v else keyLookup m k' := by
  by_cases h : k = k' <;> simp [keyLookup, List.find?, h]

theorem keyLookup_eq_none_iff {κ α : Type} [DecidableEq κ] (m : List (κ × α)) (k : κ) :
    keyLookup m k = none ↔ k ∉ m.map Prod.fst := by
  induction m with
  | nil => simp [keyLookup_nil]
  | cons kv m ih =>
    obtain ⟨k', v⟩ := kv
    rw [keyLookup_cons]
    by_cases h : k' = k <;> simp [h, ih, Ne.symm]

/-- `client.rs` `has_reached_quorum`: a quorum is reached when the number of
votes is greater than or equal to 2/3 of the total number of validators
(with the 1-of-1 / 2-of-2 special case below three validators). -/
def has_reached_quorum (total_validators : Nat) (votes : Nat) : Bool :=
  if total_validators < 3 then
    votes == total_validators
  else
    decide (2 * total_validators / 3 ≤ votes)

/-- Modelled from the spec: the quorum rule as the spec words it —
`v == n` when `n ≤ 2`, else `v ≥ ⌈2n/3⌉` (`⌈2n/3⌉ = (2n + 2) / 3`).
Written only to be compared with the implemented `has_reached_quorum`. -/
def quorum_spec_rule (n v : Nat) : Bool :=
  if n ≤ 2 then v == n else decide ((2 * n + 2) / 3 ≤ v)

/-- C1 counterexample: at `n = 4` validators and `v = 2` votes the
implemented predicate `v ≥ 2*n/3` (integer division) accepts, while the
spec's rule `v ≥ ⌈2n/3⌉` rejects: the two formulas do not agree for every
`n ≥ 3`. -/
theorem c1_quorum_counterexample :
    has_reached_quorum 4 2 = true ∧ quorum_spec_rule 4 2 = false := by
  constructor <;> decide

/-- C1 amended: the client's quorum predicate is `v == n` when `n ≤ 2` and
`v ≥ ⌊2n/3⌋` when `n ≥ 3`; the implemented floor threshold coincides with
the spec's `⌈2n/3⌉` exactly when `3 ∣ n`, and is one lower otherwise. -/
theorem c1_quorum_amended (n v : Nat) :
    (n ≤ 2 → (has_reached_quorum n v = true ↔ v = n)) ∧
    (3 ≤ n → (has_reached_quorum n v = true ↔ 2 * n / 3 ≤ v)) ∧
    (3 ≤ n → (2 * n / 3 = (2 * n + 2) / 3 ↔ n % 3 = 0)) ∧
    (3 ≤ n → n % 3 ≠ 0 → 2 * n / 3 + 1 = (2 * n + 2) / 3) := by
  refine ⟨fun h => ?_, fun h => ?_, fun h => ?_, fun h h3 => ?_⟩
  · simp only [has_reached_quorum, if_pos (by omega : n < 3), beq_iff_eq]
  · simp only [has_reached_quorum, if_neg (by omega : ¬ n < 3), decide_eq_true_eq]
  · constructor <;> intro h2 <;> omega
  · obtain ⟨q, hq⟩ : ∃ q, n = 3 * q + 1 ∨ n = 3 * q + 2 := ⟨n / 3, by omega⟩
    rcases hq with h2 | h2 <;> subst h2 <;> omega

theorem c1_quorum_amended_witness :
    (has_reached_quorum 4 2 = true ↔ 2 * 4 / 3 ≤ 2) ∧ (2 * 4 / 3 + 1 = (2 * 4 + 2) / 3) :=
  ⟨(c1_quorum_amended 4 2).2.1 (by decide), (c1_quorum_amended 4 2).2.2.2 (by decide) (by decide)⟩

/-- `common.rs` `CertifiedRecord`: a certified record of a message at a
particular time.  The aggregate `quorum_signature` is modelled as the list
of individual signatures folded into the aggregate. -/
structure CertifiedRecord : Type where
  timestamps : List Nat
  message : ByteStr
  quorum_signature : List Nat
  deriving DecidableEq, Repr

/-- `CertifiedRecord::certified_timestamp` (takes `&mut self`): sorts the
`timestamps` vector in place, then returns the middle element when the
length is odd, and the `u128` sum of the two central elements divided by 2
when the length is even — the sum wraps at `2 ^ 128` (release-build
semantics of the source's `u128` `+`; a debug build aborts at the same
inputs).  The `&mut self` mutation is modelled by returning the updated
record alongside the median. -/
def CertifiedRecord.certified_timestamp (c : CertifiedRecord) : Nat × CertifiedRecord :=
  let sorted := c.timestamps.insertionSort (· ≤ ·)
  let value :=
    if sorted.length % 2 = 0 then
      let mid := sorted.length / 2
      (sorted.getD (mid - 1) 0 + sorted.getD mid 0) % 2 ^ 128 / 2
    else
      sorted.getD (sorted.length / 2) 0
  (value, { c with timestamps := sorted })

/-- `common.rs` `CertifiedUnavailableMessage`: a certified non-existence
record for a message identity. -/
structure CertifiedUnavailableMessage : Type where
  timestamps : List Nat
  msg_id : Digest
  quorum_signature : List Nat
  deriving DecidableEq, Repr

/-- `CertifiedUnavailableMessage::certified_timestamp`: identical median
computation (wrapping `u128` addition, in-place sort) as for
`CertifiedRecord`. -/
def CertifiedUnavailableMessage.certified_timestamp (c : CertifiedUnavailableMessage) :
    Nat × CertifiedUnavailableMessage :=
  let sorted := c.timestamps.insertionSort (· ≤ ·)
  let value :=
    if sorted.length % 2 = 0 then
      let mid := sorted.length / 2
      (sorted.getD (mid - 1) 0 + sorted.getD mid 0) % 2 ^ 128 / 2
    else
      sorted.getD (sorted.length / 2) 0
  (value, { c with timestamps := sorted })

theorem insertionSort_eq_of_perm {l l' : List Nat} (h : l.Perm l') :
    l.insertionSort (· ≤ ·) = l'.insertionSort (· ≤ ·) :=
  List.eq_of_perm_of_sorted
    ((List.perm_insertionSort _ l).trans (h.trans (List.perm_insertionSort _ l').symm))
    (List.sorted_insertionSort _ l) (List.sorted_insertionSort _ l')

/-- C5 counterexample: the source computes the even-length median with a
`u128` addition of the two central elements, which wraps in a release
build (and aborts a debug build) when the sum reaches `2 ^ 128`: at the
representable timestamps vector `[2^127, 2^127]` the program returns `0`,
not the integer average `2^127`, so the claim as stated fails. -/
theorem c5_certified_timestamp_counterexample :
    (CertifiedRecord.certified_timestamp ⟨[2 ^ 127, 2 ^ 127], [], []⟩).1 = 0 ∧
    (2 ^ 127 + 2 ^ 127) / 2 = 2 ^ 127 ∧ (0 : Nat) ≠ 2 ^ 127 := by
  refine ⟨by decide, by norm_num, by norm_num⟩

/-- C5 amended: `certified_timestamp` returns the middle element of the
ascending sort when the length is odd; when the length is even it returns
the two central elements' wrapping-`u128` sum divided by 2 — their integer
average exactly whenever that sum does not overflow `u128` — and its value
is invariant under any permutation of the timestamps vector. -/
theorem c5_certified_timestamp_median (c : CertifiedRecord) (s : List Nat)
    (hne : c.timestamps ≠ []) (hperm : s.Perm c.timestamps) (hsorted : s.Sorted (· ≤ ·)) :
    (c.timestamps.length % 2 = 1 →
      (CertifiedRecord.certified_timestamp c).1 = s.getD (c.timestamps.length / 2) 0) ∧
    (c.timestamps.length % 2 = 0 →
      (CertifiedRecord.certified_timestamp c).1 =
        (s.getD (c.timestamps.length / 2 - 1) 0 + s.getD (c.timestamps.length / 2) 0)
          % 2 ^ 128 / 2) ∧
    (c.timestamps.length % 2 = 0 →
      s.getD (c.timestamps.length / 2 - 1) 0 + s.getD (c.timestamps.length / 2) 0 < 2 ^ 128 →
      (CertifiedRecord.certified_timestamp c).1 =
        (s.getD (c.timestamps.length / 2 - 1) 0 + s.getD (c.timestamps.length / 2) 0) / 2) ∧
    (∀ c' : CertifiedRecord, c'.timestamps.Perm c.timestamps →
      (CertifiedRecord.certified_timestamp c').1 =
        (CertifiedRecord.certified_timestamp c).1) := by
  have hs : s = c.timestamps.insertionSort (· ≤ ·) :=
    List.eq_of_perm_of_sorted
      (hperm.trans (List.perm_insertionSort _ c.timestamps).symm)
      hsorted (List.sorted_insertionSort _ c.timestamps)
  have hlen : (c.timestamps.insertionSort (· ≤ ·)).length = c.timestamps.length :=
    List.length_insertionSort _ c.timestamps
  refine ⟨fun hodd => ?_, fun heven => ?_, fun heven hov => ?_, fun c' hp => ?_⟩
  · simp only [CertifiedRecord.certified_timestamp, hlen, hs]
    rw [if_neg (by omega)]
  · simp only [CertifiedRecord.certified_timestamp, hlen, hs]
    rw [if_pos (by omega)]
  · rw [hs] at hov
    simp only [CertifiedRecord.certified_timestamp, hlen, hs]
    rw [if_pos (by omega), Nat.mod_eq_of_lt hov]
  · have hsort : c'.timestamps.insertionSort (· ≤ ·) = c.timestamps.insertionSort (· ≤ ·) :=
      insertionSort_eq_of_perm hp
    simp only [CertifiedRecord.certified_timestamp, hsort]

theorem c5_certified_timestamp_median_witness :
    (CertifiedRecord.certified_timestamp ⟨[3, 1, 2], [], []⟩).1 = List.getD [1, 2, 3] 1 0 ∧
    (CertifiedRecord.certified_timestamp ⟨[4, 2], [], []⟩).1 =
      (List.getD [2, 4] 0 0 + List.getD [2, 4] 1 0) / 2 := by
  constructor
  · exact (c5_certified_timestamp_median ⟨[3, 1, 2], [], []⟩ [1, 2, 3]
      (by decide) (by decide) (by decide)).1 (by decide)
  · exact (c5_certified_timestamp_median ⟨[4, 2], [], []⟩ [2, 4]
      (by decide) (by decide) (by decide)).2.2.1 (by decide) (by decide)

/-- `common.rs` `Log`: an ordered list of records. -/
structure Log : Type where
  records : List Record
  deriving DecidableEq, Repr

/-- Modelled from the spec: `hashmore::FIFOMap` is a dependency whose source
is not part of this repository.  Per §4.1 of the spec it is a bounded map
iterated in insertion order: "If the bucket is full, the oldest-inserted
record is evicted first (FIFO on insertion order). Duplicate keys overwrite
in place and do not count as a new insertion."  It is modelled as an
association list kept in insertion order, oldest entry first. -/
def fifoInsert {κ α : Type} [DecidableEq κ] (cap : Nat) (m : List (κ × α)) (k : κ) (v : α) :
    List (κ × α) :=
  if (keyLookup m k).isSome then
    m.map (fun kv => if kv.1 = k then (k, v) else kv)
  else if cap ≤ m.length then
    m.drop 1 ++ [(k, v)]
  else
    m ++ [(k, v)]

/-- `store.rs` `InMemoryStore`: an in-memory backend for the data store.
The `HashMap` from namespaces to FIFO maps is modelled as an association
list. -/
structure InMemoryStore : Type where
  cap : Nat
  record_maps : List (ByteStr × List (Digest × Record))
  deriving DecidableEq, Repr

/-- `InMemoryStore::with_capacity`. -/
def InMemoryStore.with_capacity (cap : Nat) : InMemoryStore :=
  { cap := cap, record_maps := [] }

/-- `InMemoryStore::read_range` (`end` is renamed `stop`: `end` is a Lean
keyword): all records of the namespace bucket whose timestamp lies in
`[start, stop]`, in bucket iteration order; an unknown namespace yields an
empty log. -/
def InMemoryStore.read_range (s : InMemoryStore) (ns : ByteStr) (start stop : Nat) : Log :=
  match keyLookup s.record_maps ns with
  | none => { records := [] }
  | some existing =>
    { records := (existing.map Prod.snd).filter
        (fun r => decide (start ≤ r.timestamp) && decide (r.timestamp ≤ stop)) }

/-- `InMemoryStore::read_message`: finds the first bucket entry whose KEY
(a record digest) equals `msg_id`, exactly as the source's
`existing.iter().find(|(digest, _)| *digest == &msg_id)`. -/
def InMemoryStore.read_message (s : InMemoryStore) (ns : ByteStr) (msg_id : Digest) :
    Option Record :=
  match keyLookup s.record_maps ns with
  | none => none
  | some existing => keyLookup existing msg_id

/-- `InMemoryStore::write_one`: inserts the record under its record digest
into the namespace's FIFO bucket, creating the bucket at capacity `cap`
when the namespace is new. -/
def InMemoryStore.write_one (s : InMemoryStore) (ns : ByteStr) (record : Record) : InMemoryStore :=
  let record_digest := record.digest ns
  if (keyLookup s.record_maps ns).isSome then
    { s with record_maps :=
        s.record_maps.map (fun kv =>
          if kv.1 = ns then (kv.1, fifoInsert s.cap kv.2 record_digest record) else kv) }
  else
    { s with record_maps := s.record_maps ++ [(ns, fifoInsert s.cap [] record_digest record)] }

/-- C3: the store `read_message` compares the bucket keys — which are
RECORD digests `Keccak256(ns ‖ timestamp ‖ message)` — against `msg_id`,
which callers (client `read_certified`, the unavailability path) construct
as a MESSAGE digest `Keccak256(ns ‖ message)`.  The two never coincide, so
a record that is plainly in the store (witnessed here by `read_range`) is
never found by its message identity, contradicting the claim and the
repository's own `test_read_certified`. -/
theorem c3_read_message_wrong_digest :
    InMemoryStore.read_message
      (InMemoryStore.write_one (InMemoryStore.with_capacity 4096) [1] ⟨5, [2], 9⟩)
      [1] (Digest.messageDigest [1] [2]) = none ∧
    (InMemoryStore.read_range
      (InMemoryStore.write_one (InMemoryStore.with_capacity 4096) [1] ⟨5, [2], 9⟩)
      [1] 0 10).records = [⟨5, [2], 9⟩] ∧
    Record.message_digest ⟨5, [2], 9⟩ [1] = Digest.messageDigest [1] [2] := by
  refine ⟨by decide, by decide, by decide⟩

/-- The repeated-insert scenario of the spec's FIFO test: fold `write_one`
over a list of records, all into one namespace. -/
def writeAll (s : InMemoryStore) (ns : ByteStr) (rs : List Record) : InMemoryStore :=
  rs.foldl (fun acc r => acc.write_one ns r) s

/-- The namespace's bucket, empty when the namespace is absent. -/
def bucketOf (s : InMemoryStore) (ns : ByteStr) : List (Digest × Record) :=
  (keyLookup s.record_maps ns).getD []

/-- Folding `fifoInsert` over a list of key-value pairs. -/
def fifoInsertAll {κ α : Type} [DecidableEq κ] (cap : Nat) (m : List (κ × α))
    (kvs : List (κ × α)) : List (κ × α) :=
  kvs.foldl (fun acc kv => fifoInsert cap acc kv.1 kv.2) m

theorem fifoInsert_length_le {κ α : Type} [DecidableEq κ] (cap : Nat) (hcap : 0 < cap)
    (m : List (κ × α)) (k : κ) (v : α) (hm : m.length ≤ cap) :
    (fifoInsert cap m k v).length ≤ cap := by
  unfold fifoInsert
  split
  · simpa using hm
  · split <;> simp <;> omega

theorem keyLookup_map_update {κ α : Type} [DecidableEq κ] (m : List (κ × α)) (k : κ)
    (g : α → α) :
    keyLookup (m.map (fun kv => if kv.1 = k then (kv.1, g kv.2) else kv)) k =
      (keyLookup m k).map g := by
  induction m with
  | nil => simp [keyLookup_nil]
  | cons kv m ih =>
    obtain ⟨k₀, v₀⟩ := kv
    by_cases h0 : k₀ = k
    · subst h0
      simp [keyLookup_cons, ih]
    · simp [keyLookup_cons, h0, ih]

theorem map_fst_map_update {κ α : Type} [DecidableEq κ] (m : List (κ × α)) (k : κ)
    (g : α → α) :
    (m.map (fun kv => if kv.1 = k then (kv.1, g kv.2) else kv)).map Prod.fst =
      m.map Prod.fst := by
  induction m with
  | nil => rfl
  | cons kv m ih =>
    obtain ⟨k₀, v₀⟩ := kv
    by_cases h0 : k₀ = k <;> simp only [List.map_cons, h0, if_pos, if_neg, ih] <;> simp [ih]

theorem overwrite_eq_map_update {κ α : Type} [DecidableEq κ] (m : List (κ × α)) (k : κ) (v : α) :
    (m.map (fun kv => if kv.1 = k then (k, v) else kv)) =
      (m.map (fun kv => if kv.1 = k then (kv.1, (fun _ => v) kv.2) else kv)) := by
  apply List.map_congr_left
  intro kv _
  by_cases h : kv.1 = k <;> simp [h]

theorem fifoInsert_present {κ α : Type} [DecidableEq κ] (cap : Nat) (m : List (κ × α))
    (k : κ) (v : α) (h : (keyLookup m k).isSome) :
    (fifoInsert cap m k v).map Prod.fst = m.map Prod.fst ∧
      keyLookup (fifoInsert cap m k v) k = some v := by
  obtain ⟨v', hv'⟩ := Option.isSome_iff_exists.mp h
  unfold fifoInsert
  rw [if_pos h, overwrite_eq_map_update]
  constructor
  · exact map_fst_map_update m k (fun _ => v)
  · rw [keyLookup_map_update m k (fun _ => v), hv']
    rfl

theorem keyLookup_append_of_none {κ α : Type} [DecidableEq κ] (m l : List (κ × α)) (k : κ)
    (h : keyLookup m k = none) : keyLookup (m ++ l) k = keyLookup l k := by
  induction m with
  | nil => rfl
  | cons kv m ih =>
    obtain ⟨k₀, v₀⟩ := kv
    rw [keyLookup_cons] at h
    by_cases h0 : k₀ = k
    · simp [h0] at h
    · rw [List.cons_append, keyLookup_cons, if_neg h0]
      exact ih (by rwa [if_neg h0] at h)

/-- Bucket view of one `write_one` step: the namespace's bucket undergoes a
single `fifoInsert` under the record digest, and the capacity is unchanged. -/
theorem bucketOf_write_one (s : InMemoryStore) (ns : ByteStr) (r : Record) :
    bucketOf (s.write_one ns r) ns = fifoInsert s.cap (bucketOf s ns) (r.digest ns) r ∧
      (s.write_one ns r).cap = s.cap := by
  unfold InMemoryStore.write_one bucketOf
  by_cases h : (keyLookup s.record_maps ns).isSome
  · obtain ⟨b, hb⟩ := Option.isSome_iff_exists.mp h
    rw [if_pos h]
    refine ⟨?_, rfl⟩
    simp only
    rw [keyLookup_map_update s.record_maps ns (fun b => fifoInsert s.cap b (r.digest ns) r), hb]
    rfl
  · rw [if_neg h]
    refine ⟨?_, rfl⟩
    simp only
    rw [keyLookup_append_of_none _ _ _ (Option.not_isSome_iff_eq_none.mp h),
      keyLookup_cons, if_pos rfl]
    rw [Option.not_isSome_iff_eq_none.mp h]
    rfl

theorem bucketOf_writeAll (s : InMemoryStore) (ns : ByteStr) (rs : List Record) :
    bucketOf (writeAll s ns rs) ns =
      fifoInsertAll s.cap (bucketOf s ns) (rs.map (fun r => (r.digest ns, r))) ∧
      (writeAll s ns rs).cap = s.cap := by
  induction rs generalizing s with
  | nil => exact ⟨rfl, rfl⟩
  | cons r rs ih =>
    have h1 := bucketOf_write_one s ns r
    have h2 := ih (s.write_one ns r)
    refine ⟨?_, by rw [writeAll] at h2 ⊢; simpa [h1.2] using h2.2⟩
    show bucketOf (writeAll (s.write_one ns r) ns rs) ns = _
    rw [h2.1, h1.1, h1.2]
    rfl

/-- Inserting pairwise-distinct fresh keys into an initially empty FIFO map
keeps exactly the `cap` most recently inserted entries. -/
theorem fifoInsertAll_nil_nodup {κ α : Type} [DecidableEq κ] (cap : Nat) (hcap : 0 < cap)
    (kvs : List (κ × α)) (hnodup : (kvs.map Prod.fst).Nodup) :
    fifoInsertAll cap [] kvs = kvs.drop (kvs.length - cap) := by
  induction kvs using List.reverseRecOn with
  | nil => simp [fifoInsertAll]
  | append_singleton l kv ih =>
    have hsplit : (l.map Prod.fst).Nodup ∧ kv.1 ∉ l.map Prod.fst := by
      rw [List.map_append] at hnodup
      simpa [List.nodup_append] using hnodup
    have hA : fifoInsertAll cap [] l = l.drop (l.length - cap) := ih hsplit.1
    have hstep : fifoInsertAll cap [] (l ++ [kv]) =
        fifoInsert cap (fifoInsertAll cap [] l) kv.1 kv.2 := by
      unfold fifoInsertAll
      rw [List.foldl_append]
      rfl
    have hfresh : keyLookup (l.drop (l.length - cap)) kv.1 = none := by
      rw [keyLookup_eq_none_iff]
      intro hmem
      exact hsplit.2 (((List.drop_sublist _ l).map Prod.fst).subset hmem)
    have hlapp : (l ++ [kv]).length = l.length + 1 := by simp
    rw [hstep, hA]
    unfold fifoInsert
    rw [if_neg (by simp [hfresh])]
    by_cases hlen : cap ≤ l.length
    · have hAlen : (l.drop (l.length - cap)).length = cap := by
        rw [List.length_drop]
        omega
      rw [if_pos (le_of_eq hAlen.symm), hlapp,
        List.drop_append_of_le_length (by omega : l.length + 1 - cap ≤ l.length),
        List.drop_drop]
      have hidx : l.length - cap + 1 = l.length + 1 - cap := by omega
      rw [hidx]
    · have h0 : l.length - cap = 0 := by omega
      have h1 : l.length + 1 - cap = 0 := by omega
      rw [h0, List.drop_zero] at hfresh ⊢
      rw [if_neg hlen, hlapp, h1, List.drop_zero]

/-- C8: (a) `write_one` keeps every namespace bucket within the store
capacity; (b) after `cap + 1` insertions of records with pairwise-distinct
record digests into one (initially empty) namespace, the first-inserted
digest has been evicted (FIFO on insertion order); (c) a `write_one` whose
record digest is already present overwrites in place: the bucket's key
sequence is unchanged (so nothing is evicted) and the digest now maps to
the new record. -/
theorem c8_store_bounded_fifo :
    (∀ (s : InMemoryStore) (ns : ByteStr) (r : Record), 0 < s.cap →
      (∀ b ∈ s.record_maps, b.2.length ≤ s.cap) →
      ∀ b ∈ (s.write_one ns r).record_maps, b.2.length ≤ s.cap) ∧
    (∀ (s : InMemoryStore) (ns : ByteStr) (r0 : Record) (rest : List Record), 0 < s.cap →
      (r0 :: rest).length = s.cap + 1 →
      ((r0 :: rest).map (fun r => r.digest ns)).Nodup →
      bucketOf s ns = [] →
      keyLookup (bucketOf (writeAll s ns (r0 :: rest)) ns) (r0.digest ns) = none) ∧
    (∀ (s : InMemoryStore) (ns : ByteStr) (r r' : Record),
      keyLookup (bucketOf s ns) (r.digest ns) = some r' →
      (bucketOf (s.write_one ns r) ns).map Prod.fst = (bucketOf s ns).map Prod.fst ∧
      keyLookup (bucketOf (s.write_one ns r) ns) (r.digest ns) = some r) := by
  refine ⟨?_, ?_, ?_⟩
  · intro s ns r hcap hbound b hb
    unfold InMemoryStore.write_one at hb
    by_cases h : (keyLookup s.record_maps ns).isSome
    · rw [if_pos h] at hb
      obtain ⟨b0, hb0, hbeq⟩ := List.mem_map.mp hb
      by_cases h0 : b0.1 = ns
      · rw [if_pos h0] at hbeq
        subst hbeq
        exact fifoInsert_length_le s.cap hcap b0.2 _ _ (hbound b0 hb0)
      · rw [if_neg h0] at hbeq
        subst hbeq
        exact hbound b0 hb0
    · rw [if_neg h] at hb
      rcases List.mem_append.mp hb with h1 | h1
      · exact hbound b h1
      · rw [List.mem_singleton] at h1
        subst h1
        exact fifoInsert_length_le s.cap hcap [] _ _ (by simp)
  · intro s ns r0 rest hcap hlen hnodup hempty
    have hb := (bucketOf_writeAll s ns (r0 :: rest)).1
    rw [hempty] at hb
    have hkeys : (((r0 :: rest).map (fun r => (r.digest ns, r))).map Prod.fst) =
        (r0 :: rest).map (fun r => r.digest ns) := by
      simp [List.map_map]
    have hall := fifoInsertAll_nil_nodup s.cap hcap
      ((r0 :: rest).map (fun r => (r.digest ns, r))) (by rw [hkeys]; exact hnodup)
    have hlen2 : ((r0 :: rest).map (fun r => (r.digest ns, r))).length = s.cap + 1 := by
      rw [List.length_map, hlen]
    rw [hb, hall, hlen2]
    have hdrop : ((r0 :: rest).map (fun r => (r.digest ns, r))).drop (s.cap + 1 - s.cap) =
        rest.map (fun r => (r.digest ns, r)) := by
      have h1 : s.cap + 1 - s.cap = 1 := by omega
      rw [h1]
      rfl
    rw [hdrop, keyLookup_eq_none_iff]
    have : (rest.map (fun r => (r.digest ns, r))).map Prod.fst =
        rest.map (fun r => r.digest ns) := by
      simp [List.map_map]
    rw [this]
    rw [List.map_cons, List.nodup_cons] at hnodup
    exact hnodup.1
  · intro s ns r r' h
    have hb := (bucketOf_write_one s ns r).1
    rw [hb]
    have hsome : (keyLookup (bucketOf s ns) (r.digest ns)).isSome := by rw [h]; rfl
    exact fifoInsert_present s.cap (bucketOf s ns) _ r hsome

theorem c8_store_bounded_fifo_witness :
    keyLookup
      (bucketOf (writeAll (InMemoryStore.with_capacity 1) [0] [⟨1, [5], 0⟩, ⟨2, [5], 0⟩]) [0])
      (Record.digest ⟨1, [5], 0⟩ [0]) = none :=
  c8_store_bounded_fifo.2.1 (InMemoryStore.with_capacity 1) [0] ⟨1, [5], 0⟩ [⟨2, [5], 0⟩]
    (by decide) (by decide) (by decide) (by decide)

/-- A parsed validator reply to `Client::write`, with `sigValid` standing
for the outcome of `verify_signature(record.signature, pubkey_of_index,
record.digest(namespace))`. -/
structure ReplyRecord : Type where
  timestamp : Nat
  message : ByteStr
  signature : Nat
  sigValid : Bool
  deriving DecidableEq, Repr

/-- One completed per-validator future of `Client::write`'s fan-out. -/
inductive WriteReply : Type where
  /-- the future resolved to `None`: per-validator transport error/timeout -/
  | failure
  /-- the reply bytes did not deserialize as a `Record` -/
  | parseError
  /-- the reply bytes parsed as a record -/
  | reply (r : ReplyRecord)
  deriving DecidableEq, Repr

/-- The local mutable state of `Client::write`'s collection loop. -/
structure WriteState : Type where
  timestamps : List Nat
  votes : Nat
  quorum_signature : Option (List Nat)
  deriving DecidableEq, Repr

/-- The `while let Some(Some((index, bytes))) = responses.next()` loop of
`Client::write`: a `failure` event fails the `Some(Some(..))` pattern and
exits the loop; a parse failure, a message mismatch, or an invalid
signature `continue`s; a valid reply adds its signature to the aggregate,
stores `timestamps[index]`, increments the vote count and breaks once
`has_reached_quorum` holds. -/
def writeLoop (n : Nat) (message : ByteStr) :
    List (Nat × WriteReply) → WriteState → WriteState
  | [], st => st
  | (index, rep) :: rest, st =>
    match rep with
    | .failure => st
    | .parseError => writeLoop n message rest st
    | .reply r =>
      if r.message ≠ message then writeLoop n message rest st
      else if r.sigValid = false then writeLoop n message rest st
      else
        let st' : WriteState :=
          { timestamps := st.timestamps.set index r.timestamp
            votes := st.votes + 1
            quorum_signature := some (st.quorum_signature.getD [] ++ [r.signature]) }
        if has_reached_quorum n st'.votes then st' else writeLoop n message rest st'

/-- The `(index, timestamp)` pairs of the replies the loop counts as votes,
in processing order — the projection of `writeLoop`'s control flow used to
state which validators actually voted. -/
def countedVotes (n : Nat) (message : ByteStr) :
    List (Nat × WriteReply) → Nat → List (Nat × Nat)
  | [], _ => []
  | (index, rep) :: rest, votes =>
    match rep with
    | .failure => []
    | .parseError => countedVotes n message rest votes
    | .reply r =>
      if r.message ≠ message then countedVotes n message rest votes
      else if r.sigValid = false then countedVotes n message rest votes
      else
        (index, r.timestamp) ::
          (if has_reached_quorum n (votes + 1) then []
           else countedVotes n message rest (votes + 1))

/-- Result of `Client::write`: `panicked` is the
`quorum_signature.expect("Quorum passed")` panic. -/
inductive WriteResult : Type where
  | ok (cert : CertifiedRecord)
  | noQuorum (got : Nat) (needed : Nat)
  | panicked
  deriving DecidableEq, Repr

/-- `Client::write` over `n` connected validators: pre-allocates an
all-zero timestamps vector of length `n`, runs the collection loop on the
completed futures, fails with `NoQuorum` when the quorum check fails, and
otherwise builds the `CertifiedRecord` — whose timestamps vector is then
sorted in place by the `certified_timestamp()` call made for the debug log
line before the record is returned. -/
def Client.write (n : Nat) (message : ByteStr) (events : List (Nat × WriteReply)) : WriteResult :=
  let st := writeLoop n message events
    { timestamps := List.replicate n 0, votes := 0, quorum_signature := none }
  if has_reached_quorum n st.votes then
    match st.quorum_signature with
    | some sigs =>
      .ok (CertifiedRecord.certified_timestamp
        { timestamps := st.timestamps, message := message, quorum_signature := sigs }).2
    | none => .panicked
  else
    .noQuorum st.votes n

theorem writeLoop_votes (n : Nat) (msg : ByteStr) :
    ∀ (evs : List (Nat × WriteReply)) (st : WriteState),
      (writeLoop n msg evs st).votes = st.votes + (countedVotes n msg evs st.votes).length := by
  intro evs
  induction evs with
  | nil => intro st; rfl
  | cons e rest ih =>
    intro st
    obtain ⟨index, rep⟩ := e
    cases rep with
    | failure => rfl
    | parseError =>
      simp only [writeLoop, countedVotes]
      exact ih st
    | reply r =>
      by_cases h1 : r.message ≠ msg
      · simp only [writeLoop, countedVotes, if_pos h1]
        exact ih st
      · by_cases h2 : r.sigValid = false
        · simp only [writeLoop, countedVotes, if_neg h1, if_pos h2]
          exact ih st
        · by_cases h3 : has_reached_quorum n (st.votes + 1) = true
          · simp only [writeLoop, countedVotes, if_neg h1, if_neg h2, h3, if_pos]
            simp
          · simp only [writeLoop, countedVotes, if_neg h1, if_neg h2,
              Bool.not_eq_true] at h3 ⊢
            rw [if_neg (by simp [h3]), if_neg (by simp [h3])]
            rw [ih]
            simp only [List.length_cons]
            omega

theorem writeLoop_timestamps_length (n : Nat) (msg : ByteStr) :
    ∀ (evs : List (Nat × WriteReply)) (st : WriteState),
      (writeLoop n msg evs st).timestamps.length = st.timestamps.length := by
  intro evs
  induction evs with
  | nil => intro st; rfl
  | cons e rest ih =>
    intro st
    obtain ⟨index, rep⟩ := e
    cases rep with
    | failure => rfl
    | parseError => exact ih st
    | reply r =>
      by_cases h1 : r.message ≠ msg
      · simp only [writeLoop, if_pos h1]
        exact ih st
      · by_cases h2 : r.sigValid = false
        · simp only [writeLoop, if_neg h1, if_pos h2]
          exact ih st
        · by_cases h3 : has_reached_quorum n (st.votes + 1) = true
          · simp only [writeLoop, if_neg h1, if_neg h2, h3, if_pos]
            simp
          · simp only [writeLoop, if_neg h1, if_neg h2, Bool.not_eq_true] at h3 ⊢
            rw [if_neg (by simp [h3])]
            rw [ih]
            simp

theorem writeLoop_sig_mono (n : Nat) (msg : ByteStr) :
    ∀ (evs : List (Nat × WriteReply)) (st : WriteState),
      st.quorum_signature.isSome → (writeLoop n msg evs st).quorum_signature.isSome := by
  intro evs
  induction evs with
  | nil => intro st h; exact h
  | cons e rest ih =>
    intro st h
    obtain ⟨index, rep⟩ := e
    cases rep with
    | failure => exact h
    | parseError => exact ih st h
    | reply r =>
      by_cases h1 : r.message ≠ msg
      · simp only [writeLoop, if_pos h1]
        exact ih st h
      · by_cases h2 : r.sigValid = false
        · simp only [writeLoop, if_neg h1, if_pos h2]
          exact ih st h
        · by_cases h3 : has_reached_quorum n (st.votes + 1) = true
          · simp only [writeLoop, if_neg h1, if_neg h2, h3, if_pos]
            simp
          · simp only [writeLoop, if_neg h1, if_neg h2, Bool.not_eq_true] at h3 ⊢
            rw [if_neg (by simp [h3])]
            exact ih _ (by simp)

theorem writeLoop_sig_of_counted (n : Nat) (msg : ByteStr) :
    ∀ (evs : List (Nat × WriteReply)) (st : WriteState),
      countedVotes n msg evs st.votes ≠ [] →
      (writeLoop n msg evs st).quorum_signature.isSome := by
  intro evs
  induction evs with
  | nil => intro st h; exact absurd rfl h
  | cons e rest ih =>
    intro st h
    obtain ⟨index, rep⟩ := e
    cases rep with
    | failure => exact absurd rfl h
    | parseError =>
      simp only [countedVotes] at h
      exact ih st h
    | reply r =>
      by_cases h1 : r.message ≠ msg
      · simp only [countedVotes, if_pos h1] at h
        simp only [writeLoop, if_pos h1]
        exact ih st h
      · by_cases h2 : r.sigValid = false
        · simp only [countedVotes, if_neg h1, if_pos h2] at h
          simp only [writeLoop, if_neg h1, if_pos h2]
          exact ih st h
        · by_cases h3 : has_reached_quorum n (st.votes + 1) = true
          · simp only [writeLoop, if_neg h1, if_neg h2, h3, if_pos]
            simp
          · simp only [writeLoop, if_neg h1, if_neg h2, Bool.not_eq_true] at h3 ⊢
            rw [if_neg (by simp [h3])]
            exact writeLoop_sig_mono n msg rest _ (by simp)

theorem countedVotes_index_mem (n : Nat) (msg : ByteStr) :
    ∀ (evs : List (Nat × WriteReply)) (votes i : Nat),
      i ∈ (countedVotes n msg evs votes).map Prod.fst → i ∈ evs.map Prod.fst := by
  intro evs
  induction evs with
  | nil => intro votes i h; simp [countedVotes] at h
  | cons e rest ih =>
    intro votes i h
    obtain ⟨index, rep⟩ := e
    cases rep with
    | failure => simp [countedVotes] at h
    | parseError =>
      simp only [countedVotes] at h
      simp only [List.map_cons]
      exact List.mem_cons_of_mem _ (ih votes i h)
    | reply r =>
      simp only [List.map_cons]
      by_cases h1 : r.message ≠ msg
      · simp only [countedVotes, if_pos h1] at h
        exact List.mem_cons_of_mem _ (ih votes i h)
      · by_cases h2 : r.sigValid = false
        · simp only [countedVotes, if_neg h1, if_pos h2] at h
          exact List.mem_cons_of_mem _ (ih votes i h)
        · simp only [countedVotes, if_neg h1, if_neg h2, List.map_cons, List.mem_cons] at h
          rcases h with h | h
          · exact List.mem_cons.mpr (Or.inl h)
          · by_cases h3 : has_reached_quorum n (votes + 1) = true
            · rw [if_pos h3] at h
              simp at h
            · rw [if_neg h3] at h
              exact List.mem_cons_of_mem _ (ih (votes + 1) i h)

theorem writeLoop_timestamps_getD (n : Nat) (msg : ByteStr) :
    ∀ (evs : List (Nat × WriteReply)) (st : WriteState),
      (evs.map Prod.fst).Nodup →
      (∀ e ∈ evs, e.1 < st.timestamps.length) →
      ∀ i, (writeLoop n msg evs st).timestamps.getD i 0 =
        match keyLookup (countedVotes n msg evs st.votes) i with
        | some ts => ts
        | none => st.timestamps.getD i 0 := by
  intro evs
  induction evs with
  | nil => intro st _ _ i; rfl
  | cons e rest ih =>
    intro st hnodup hlt i
    obtain ⟨index, rep⟩ := e
    rw [List.map_cons, List.nodup_cons] at hnodup
    have hlt_head : index < st.timestamps.length := hlt (index, rep) (List.mem_cons_self _ _)
    have hlt_rest : ∀ e ∈ rest, e.1 < st.timestamps.length :=
      fun e he => hlt e (List.mem_cons_of_mem _ he)
    cases rep with
    | failure => rfl
    | parseError =>
      simp only [writeLoop, countedVotes]
      exact ih st hnodup.2 hlt_rest i
    | reply r =>
      by_cases h1 : r.message ≠ msg
      · simp only [writeLoop, countedVotes, if_pos h1]
        exact ih st hnodup.2 hlt_rest i
      · by_cases h2 : r.sigValid = false
        · simp only [writeLoop, countedVotes, if_neg h1, if_pos h2]
          exact ih st hnodup.2 hlt_rest i
        · by_cases h3 : has_reached_quorum n (st.votes + 1) = true
          · simp only [writeLoop, countedVotes, if_neg h1, if_neg h2, h3, if_pos]
            rw [keyLookup_cons, keyLookup_nil]
            by_cases h4 : index = i
            · subst h4
              simp only [if_pos rfl]
              simp [List.getD_eq_getElem?_getD, List.getElem?_set_self', hlt_head]
            · simp only [if_neg h4]
              simp [List.getD_eq_getElem?_getD, List.getElem?_set_ne h4]
          · simp only [writeLoop, countedVotes, if_neg h1, if_neg h2,
              Bool.not_eq_true] at h3 ⊢
            rw [if_neg (by simp [h3]), if_neg (by simp [h3])]
            have hres := ih
              { timestamps := st.timestamps.set index r.timestamp
                votes := st.votes + 1
                quorum_signature := some (st.quorum_signature.getD [] ++ [r.signature]) }
              hnodup.2 (fun e he => by simpa using hlt_rest e he) i
            rw [hres, keyLookup_cons]
            by_cases h4 : index = i
            · subst h4
              rw [if_pos rfl]
              have hnone : keyLookup (countedVotes n msg rest (st.votes + 1)) index = none := by
                rw [keyLookup_eq_none_iff]
                intro hmem
                exact hnodup.1 (countedVotes_index_mem n msg rest (st.votes + 1) index hmem)
              simp only [hnone]
              simp [List.getD_eq_getElem?_getD, List.getElem?_set_self', hlt_head]
            · rw [if_neg h4]
              rcases hcr : keyLookup (countedVotes n msg rest (st.votes + 1)) i with _ | ts
              · simp only []
                simp [List.getD_eq_getElem?_getD, List.getElem?_set_ne h4]
              · rfl

/-- C2: the collection loop does fill the vector by validator index
(validator 0 voted timestamp 5, validator 1 timestamp 3, giving `[5, 3]`),
but before returning, `write` calls `certified_timestamp()` — which sorts
`timestamps` IN PLACE — for its debug log line, so the returned
`CertifiedRecord` carries the ascending-sorted vector `[3, 5]`: entry 0 is
no longer validator 0's timestamp, contradicting the claim (and the field's
own doc comment "The index is the validator ID"). -/
theorem c2_write_returns_sorted_timestamps :
    (writeLoop 2 [1] [(0, .reply ⟨5, [1], 9, true⟩), (1, .reply ⟨3, [1], 8, true⟩)]
      { timestamps := List.replicate 2 0, votes := 0, quorum_signature := none }).timestamps =
      [5, 3] ∧
    Client.write 2 [1] [(0, .reply ⟨5, [1], 9, true⟩), (1, .reply ⟨3, [1], 8, true⟩)] =
      .ok ⟨[3, 5], [1], [9, 8]⟩ ∧
    countedVotes 2 [1] [(0, .reply ⟨5, [1], 9, true⟩), (1, .reply ⟨3, [1], 8, true⟩)] 0 =
      [(0, 5), (1, 3)] := by
  refine ⟨by decide, by decide, by decide⟩

/-- A reply that the loop skips with `continue`: a parse failure, a reply
whose message differs from the requested one, or a reply whose signature
does not verify. -/
def skippedReply (msg : ByteStr) : WriteReply → Bool
  | .failure => false
  | .parseError => true
  | .reply r => decide (r.message ≠ msg) || (r.sigValid == false)

theorem writeLoop_skip_cons (n : Nat) (msg : ByteStr) (j : Nat) (rep : WriteReply)
    (evs : List (Nat × WriteReply)) (st : WriteState) (h : skippedReply msg rep = true) :
    writeLoop n msg ((j, rep) :: evs) st = writeLoop n msg evs st := by
  cases rep with
  | failure => simp [skippedReply] at h
  | parseError => rfl
  | reply r =>
    simp only [skippedReply, Bool.or_eq_true, decide_eq_true_eq, beq_iff_eq] at h
    rcases h with h | h
    · simp only [writeLoop, if_pos h]
    · by_cases h1 : r.message ≠ msg
      · simp only [writeLoop, if_pos h1]
      · simp only [writeLoop, if_neg h1, if_pos h]

theorem writeLoop_skip_insert (n : Nat) (msg : ByteStr) (j : Nat) (rep : WriteReply)
    (h : skippedReply msg rep = true) :
    ∀ (pre post : List (Nat × WriteReply)) (st : WriteState),
      writeLoop n msg (pre ++ (j, rep) :: post) st = writeLoop n msg (pre ++ post) st := by
  intro pre
  induction pre with
  | nil =>
    intro post st
    exact writeLoop_skip_cons n msg j rep post st h
  | cons e pre ih =>
    intro post st
    obtain ⟨i0, rep0⟩ := e
    cases rep0 with
    | failure => rfl
    | parseError =>
      simp only [List.cons_append, writeLoop]
      exact ih post st
    | reply r =>
      simp only [List.cons_append, writeLoop]
      by_cases h1 : r.message ≠ msg
      · simp only [if_pos h1]
        exact ih post st
      · by_cases h2 : r.sigValid = false
        · simp only [if_neg h1, if_pos h2]
          exact ih post st
        · by_cases h3 : has_reached_quorum n (st.votes + 1) = true
          · simp only [if_neg h1, if_neg h2, h3, if_pos]
          · simp only [if_neg h1, if_neg h2, Bool.not_eq_true] at h3 ⊢
            rw [if_neg (by simp [h3]), if_neg (by simp [h3])]
            exact ih post _

theorem has_reached_quorum_zero_votes (n : Nat) (hn : 0 < n) :
    has_reached_quorum n 0 = false := by
  unfold has_reached_quorum
  split
  · simp
    omega
  · simp
    omega

theorem client_write_unfold (n : Nat) (msg : ByteStr) (evs : List (Nat × WriteReply)) :
    Client.write n msg evs =
      if has_reached_quorum n
          (writeLoop n msg evs ⟨List.replicate n 0, 0, none⟩).votes = true then
        match (writeLoop n msg evs ⟨List.replicate n 0, 0, none⟩).quorum_signature with
        | some sigs =>
          .ok (CertifiedRecord.certified_timestamp
            { timestamps := (writeLoop n msg evs ⟨List.replicate n 0, 0, none⟩).timestamps,
              message := msg, quorum_signature := sigs }).2
        | none => .panicked
      else .noQuorum (writeLoop n msg evs ⟨List.replicate n 0, 0, none⟩).votes n := rfl

/-- C6: (a) a reply skipped by the loop — parse failure, message mismatch,
or failed signature verification — can be removed from the completion
sequence without changing the outcome of `write` at all (it contributes
neither vote nor signature and never fails the operation); (b) when the
counted valid votes never reach quorum, `write` returns
`NoQuorum { got = counted votes, needed = n }`, and otherwise it returns a
`CertifiedRecord`. -/
theorem c6_write_error_propagation :
    (∀ (n : Nat) (msg : ByteStr) (pre post : List (Nat × WriteReply)) (j : Nat)
        (rep : WriteReply), skippedReply msg rep = true →
      Client.write n msg (pre ++ (j, rep) :: post) = Client.write n msg (pre ++ post)) ∧
    (∀ (n : Nat) (msg : ByteStr) (evs : List (Nat × WriteReply)), 0 < n →
      (has_reached_quorum n (countedVotes n msg evs 0).length = false →
        Client.write n msg evs = .noQuorum (countedVotes n msg evs 0).length n) ∧
      (has_reached_quorum n (countedVotes n msg evs 0).length = true →
        ∃ cert, Client.write n msg evs = .ok cert)) := by
  constructor
  · intro n msg pre post j rep h
    unfold Client.write
    rw [writeLoop_skip_insert n msg j rep h pre post]
  · intro n msg evs hn
    have hv := writeLoop_votes n msg evs
      { timestamps := List.replicate n 0, votes := 0, quorum_signature := none }
    simp only [Nat.zero_add] at hv
    constructor
    · intro hq
      rw [client_write_unfold, hv, if_neg (by rw [hq]; exact Bool.false_ne_true)]
    · intro hq
      have hne : countedVotes n msg evs 0 ≠ [] := by
        intro hnil
        rw [hnil] at hq
        simp only [List.length_nil] at hq
        rw [has_reached_quorum_zero_votes n hn] at hq
        exact Bool.false_ne_true hq
      have hsig := writeLoop_sig_of_counted n msg evs
        { timestamps := List.replicate n 0, votes := 0, quorum_signature := none } hne
      rw [client_write_unfold, hv, if_pos hq]
      obtain ⟨sigs, hsigs⟩ := Option.isSome_iff_exists.mp hsig
      rw [hsigs]
      exact ⟨_, rfl⟩

theorem c6_write_error_propagation_witness :
    Client.write 2 [1] [(0, .reply ⟨5, [2], 9, true⟩), (1, .reply ⟨3, [1], 8, true⟩)] =
      .noQuorum 1 2 ∧
    Client.write 2 [1] [(0, .parseError), (1, .reply ⟨3, [1], 8, true⟩)] =
      Client.write 2 [1] [(1, .reply ⟨3, [1], 8, true⟩)] := by
  constructor
  · exact ((c6_write_error_propagation.2 2 [1]
      [(0, .reply ⟨5, [2], 9, true⟩), (1, .reply ⟨3, [1], 8, true⟩)] (by decide)).1
        (by decide)).trans (by decide)
  · exact c6_write_error_propagation.1 2 [1] [] [(1, .reply ⟨3, [1], 8, true⟩)] 0
      .parseError (by decide)

/-- C10: with zero connected validators, `has_reached_quorum(0, 0)` is true
(the `n < 3` branch compares `0 == 0`), so `write` passes its quorum check
with zero votes and reaches `quorum_signature.expect("Quorum passed")` on a
`None` aggregate, i.e. it panics instead of returning an error or a
certificate. -/
theorem c10_zero_validators_write_panics (msg : ByteStr) :
    has_reached_quorum 0 0 = true ∧ Client.write 0 msg [] = .panicked :=
  ⟨rfl, rfl⟩

/-- A parsed `UnavailableMessage` reply, with `sigValid` the outcome of
`verify_signature(unavailable.signature, pubkey_of_index,
unavailable.digest())`. -/
structure UnavailableReply : Type where
  timestamp : Nat
  signature : Nat
  sigValid : Bool
  deriving DecidableEq, Repr

/-- One completed per-validator future of `Client::read_message`'s fan-out. -/
inductive ReadReply : Type where
  /-- the future resolved to `None`: per-validator transport error/timeout -/
  | failure
  /-- the reply bytes did not deserialize as a `ReadMessageResponse` -/
  | parseError
  /-- `ReadMessageResponse::Available(record)` -/
  | available (r : ReplyRecord)
  /-- `ReadMessageResponse::Unavailable(unavailable)` -/
  | unavailable (u : UnavailableReply)
  deriving DecidableEq, Repr

/-- The local mutable state of `Client::read_message`'s collection loop. -/
structure ReadState : Type where
  available_timestamps : List Nat
  unavailable_timestamps : List Nat
  available_quorum_signature : Option (List Nat)
  unavailable_quorum_signature : Option (List Nat)
  available_votes : Nat
  unavailable_votes : Nat
  message : ByteStr
  deriving DecidableEq, Repr

/-- The loop-exit test of `Client::read_message`: either side reached
quorum, or the two sides' vote total reached the validator count. -/
def readBreak (n : Nat) (st : ReadState) : Bool :=
  has_reached_quorum n st.available_votes || has_reached_quorum n st.unavailable_votes ||
    decide (n ≤ st.available_votes + st.unavailable_votes)

/-- The collection loop of `Client::read_message`: a `failure` event exits
the `while let Some(Some(..))` loop; parse failures `continue`; an
`Available` reply is checked for message-digest integrity (`continue` on
mismatch), its message is recorded, its signature verified (`continue` on
failure), then it is tallied on the available side; an `Unavailable` reply
is verified and tallied on the unavailable side; after every tallied reply
the loop breaks if `readBreak` holds. -/
def readLoop (n : Nat) (ns : ByteStr) (msg_id : Digest) :
    List (Nat × ReadReply) → ReadState → ReadState
  | [], st => st
  | (index, rep) :: rest, st =>
    match rep with
    | .failure => st
    | .parseError => readLoop n ns msg_id rest st
    | .available r =>
      if Digest.messageDigest ns r.message ≠ msg_id then readLoop n ns msg_id rest st
      else
        let st₁ : ReadState := { st with message := r.message }
        if r.sigValid = false then readLoop n ns msg_id rest st₁
        else
          let st₂ : ReadState := { st₁ with
            available_quorum_signature :=
              some (st₁.available_quorum_signature.getD [] ++ [r.signature])
            available_votes := st₁.available_votes + 1
            available_timestamps := st₁.available_timestamps.set index r.timestamp }
          if readBreak n st₂ then st₂ else readLoop n ns msg_id rest st₂
    | .unavailable u =>
      if u.sigValid = false then readLoop n ns msg_id rest st
      else
        let st₂ : ReadState := { st with
          unavailable_quorum_signature :=
            some (st.unavailable_quorum_signature.getD [] ++ [u.signature])
          unavailable_votes := st.unavailable_votes + 1
          unavailable_timestamps := st.unavailable_timestamps.set index u.timestamp }
        if readBreak n st₂ then st₂ else readLoop n ns msg_id rest st₂

/-- The initial state of `Client::read_message`: two all-zero per-validator
timestamp vectors, no aggregates, no votes, and the default (empty)
message. -/
def readInit (n : Nat) : ReadState :=
  { available_timestamps := List.replicate n 0
    unavailable_timestamps := List.replicate n 0
    available_quorum_signature := none
    unavailable_quorum_signature := none
    available_votes := 0
    unavailable_votes := 0
    message := [] }

/-- Result of `Client::read_message`. -/
inductive ReadResult : Type where
  | availableR (cert : CertifiedRecord)
  | unavailableR (cert : CertifiedUnavailableMessage)
  | noQuorum (available : Nat) (unavailable : Nat)
  | panicked
  deriving DecidableEq, Repr

/-- `Client::read_message` over `n` connected validators: runs the
collection loop, then returns `Available` if the available side reached
quorum, else `Unavailable` if the unavailable side did, else
`NoQuorum { available, unavailable }`.  As in `write`, the returned
certificate's timestamps vector is sorted in place by the
`certified_timestamp()` call made for the debug log line. -/
def Client.read_message (n : Nat) (ns : ByteStr) (msg_id : Digest)
    (events : List (Nat × ReadReply)) : ReadResult :=
  let st := readLoop n ns msg_id events (readInit n)
  if has_reached_quorum n st.available_votes then
    match st.available_quorum_signature with
    | some sigs =>
      .availableR (CertifiedRecord.certified_timestamp
        { timestamps := st.available_timestamps, message := st.message,
          quorum_signature := sigs }).2
    | none => .panicked
  else if has_reached_quorum n st.unavailable_votes then
    match st.unavailable_quorum_signature with
    | some sigs =>
      .unavailableR (CertifiedUnavailableMessage.certified_timestamp
        { timestamps := st.unavailable_timestamps, msg_id := msg_id,
          quorum_signature := sigs }).2
    | none => .panicked
  else .noQuorum st.available_votes st.unavailable_votes

theorem client_read_message_unfold (n : Nat) (ns : ByteStr) (msg_id : Digest)
    (events : List (Nat × ReadReply)) :
    Client.read_message n ns msg_id events =
      if has_reached_quorum n (readLoop n ns msg_id events (readInit n)).available_votes then
        match (readLoop n ns msg_id events (readInit n)).available_quorum_signature with
        | some sigs =>
          .availableR (CertifiedRecord.certified_timestamp
            { timestamps := (readLoop n ns msg_id events (readInit n)).available_timestamps,
              message := (readLoop n ns msg_id events (readInit n)).message,
              quorum_signature := sigs }).2
        | none => .panicked
      else if has_reached_quorum n
          (readLoop n ns msg_id events (readInit n)).unavailable_votes then
        match (readLoop n ns msg_id events (readInit n)).unavailable_quorum_signature with
        | some sigs =>
          .unavailableR (CertifiedUnavailableMessage.certified_timestamp
            { timestamps := (readLoop n ns msg_id events (readInit n)).unavailable_timestamps,
              msg_id := msg_id, quorum_signature := sigs }).2
        | none => .panicked
      else .noQuorum (readLoop n ns msg_id events (readInit n)).available_votes
        (readLoop n ns msg_id events (readInit n)).unavailable_votes := rfl

theorem readLoop_sig_iff (n : Nat) (ns : ByteStr) (msg_id : Digest) :
    ∀ (evs : List (Nat × ReadReply)) (st : ReadState),
      (st.available_quorum_signature.isSome = true ↔ 0 < st.available_votes) →
      (st.unavailable_quorum_signature.isSome = true ↔ 0 < st.unavailable_votes) →
      ((readLoop n ns msg_id evs st).available_quorum_signature.isSome = true ↔
        0 < (readLoop n ns msg_id evs st).available_votes) ∧
      ((readLoop n ns msg_id evs st).unavailable_quorum_signature.isSome = true ↔
        0 < (readLoop n ns msg_id evs st).unavailable_votes) := by
  intro evs
  induction evs with
  | nil => intro st h1 h2; exact ⟨h1, h2⟩
  | cons e rest ih =>
    intro st h1 h2
    obtain ⟨index, rep⟩ := e
    cases rep with
    | failure => exact ⟨h1, h2⟩
    | parseError => exact ih st h1 h2
    | available r =>
      by_cases hd : Digest.messageDigest ns r.message ≠ msg_id
      · simp only [readLoop, if_pos hd]
        exact ih st h1 h2
      · by_cases hs : r.sigValid = false
        · simp only [readLoop, if_neg hd, if_pos hs]
          exact ih { st with message := r.message } h1 h2
        · by_cases hb : readBreak n
            { st with
              message := r.message
              available_quorum_signature :=
                some (st.available_quorum_signature.getD [] ++ [r.signature])
              available_votes := st.available_votes + 1
              available_timestamps := st.available_timestamps.set index r.timestamp } = true
          · simp only [readLoop, if_neg hd, if_neg hs, hb, if_pos]
            constructor
            · simp
            · exact h2
          · simp only [readLoop, if_neg hd, if_neg hs, Bool.not_eq_true] at hb ⊢
            rw [if_neg (by simp only [hb]; exact Bool.false_ne_true)]
            exact ih _ (by simp) h2
    | unavailable u =>
      by_cases hs : u.sigValid = false
      · simp only [readLoop, if_pos hs]
        exact ih st h1 h2
      · by_cases hb : readBreak n
          { st with
            unavailable_quorum_signature :=
              some (st.unavailable_quorum_signature.getD [] ++ [u.signature])
            unavailable_votes := st.unavailable_votes + 1
            unavailable_timestamps := st.unavailable_timestamps.set index u.timestamp } = true
        · simp only [readLoop, if_neg hs, hb, if_pos]
          constructor
          · exact h1
          · simp
        · simp only [readLoop, if_neg hs, Bool.not_eq_true] at hb ⊢
          rw [if_neg (by simp only [hb]; exact Bool.false_ne_true)]
          exact ih _ h1 (by simp)

theorem readLoop_break_stable (n : Nat) (ns : ByteStr) (msg_id : Digest) :
    ∀ (pre post : List (Nat × ReadReply)) (st : ReadState),
      readBreak n st = false →
      readBreak n (readLoop n ns msg_id pre st) = true →
      readLoop n ns msg_id (pre ++ post) st = readLoop n ns msg_id pre st := by
  intro pre
  induction pre with
  | nil =>
    intro post st h0 h1
    simp only [readLoop] at h1
    rw [h0] at h1
    exact absurd h1 Bool.false_ne_true
  | cons e pre ih =>
    intro post st h0 h1
    obtain ⟨index, rep⟩ := e
    cases rep with
    | failure => rfl
    | parseError =>
      simp only [List.cons_append, readLoop] at h1 ⊢
      exact ih post st h0 h1
    | available r =>
      simp only [List.cons_append, readLoop] at h1 ⊢
      by_cases hd : Digest.messageDigest ns r.message ≠ msg_id
      · rw [if_pos hd] at h1
        rw [if_pos hd, if_pos hd]
        exact ih post st h0 h1
      · rw [if_neg hd] at h1
        rw [if_neg hd, if_neg hd]
        by_cases hs : r.sigValid = false
        · rw [if_pos hs] at h1
          rw [if_pos hs, if_pos hs]
          exact ih post _ h0 h1
        · rw [if_neg hs] at h1
          rw [if_neg hs, if_neg hs]
          by_cases hb : readBreak n
              { st with
                message := r.message
                available_quorum_signature :=
                  some (st.available_quorum_signature.getD [] ++ [r.signature])
                available_votes := st.available_votes + 1
                available_timestamps := st.available_timestamps.set index r.timestamp } = true
          · rw [if_pos hb]
            rw [if_pos hb]
          · rw [if_neg hb] at h1
            rw [if_neg hb, if_neg hb]
            exact ih post _ (by simpa using hb) h1
    | unavailable u =>
      simp only [List.cons_append, readLoop] at h1 ⊢
      by_cases hs : u.sigValid = false
      · rw [if_pos hs] at h1
        rw [if_pos hs, if_pos hs]
        exact ih post st h0 h1
      · rw [if_neg hs] at h1
        rw [if_neg hs, if_neg hs]
        by_cases hb : readBreak n
            { st with
              unavailable_quorum_signature :=
                some (st.unavailable_quorum_signature.getD [] ++ [u.signature])
              unavailable_votes := st.unavailable_votes + 1
              unavailable_timestamps := st.unavailable_timestamps.set index u.timestamp } = true
        · rw [if_pos hb]
          rw [if_pos hb]
        · rw [if_neg hb] at h1
          rw [if_neg hb, if_neg hb]
          exact ih post _ (by simpa using hb) h1

/-- C7: with `n > 0` validators, `read_message` returns `Available` exactly
when the available votes reached quorum (first conjunct, with its converse
as the fourth conjunct — so on a tie Available is returned only if it
independently reached quorum), else `Unavailable` when the unavailable
votes reached quorum, and otherwise fails with `NoQuorum` carrying the
available and unavailable vote counts; and the collection loop terminates
as soon as either side reaches quorum or the two sides' vote total reaches
`n`: events completing after that point cannot change the outcome. -/
theorem c7_read_message_outcome (n : Nat) (ns : ByteStr) (msg_id : Digest)
    (events : List (Nat × ReadReply)) (hn : 0 < n) :
    (has_reached_quorum n (readLoop n ns msg_id events (readInit n)).available_votes = true →
      Client.read_message n ns msg_id events =
        .availableR (CertifiedRecord.certified_timestamp
          { timestamps := (readLoop n ns msg_id events (readInit n)).available_timestamps
            message := (readLoop n ns msg_id events (readInit n)).message
            quorum_signature :=
              (readLoop n ns msg_id events (readInit n)).available_quorum_signature.getD
                [] }).2) ∧
    (has_reached_quorum n (readLoop n ns msg_id events (readInit n)).available_votes = false →
      has_reached_quorum n (readLoop n ns msg_id events (readInit n)).unavailable_votes = true →
      Client.read_message n ns msg_id events =
        .unavailableR (CertifiedUnavailableMessage.certified_timestamp
          { timestamps := (readLoop n ns msg_id events (readInit n)).unavailable_timestamps
            msg_id := msg_id
            quorum_signature :=
              (readLoop n ns msg_id events (readInit n)).unavailable_quorum_signature.getD
                [] }).2) ∧
    (has_reached_quorum n (readLoop n ns msg_id events (readInit n)).available_votes = false →
      has_reached_quorum n (readLoop n ns msg_id events (readInit n)).unavailable_votes = false →
      Client.read_message n ns msg_id events =
        .noQuorum (readLoop n ns msg_id events (readInit n)).available_votes
          (readLoop n ns msg_id events (readInit n)).unavailable_votes) ∧
    (∀ cert, Client.read_message n ns msg_id events = .availableR cert →
      has_reached_quorum n (readLoop n ns msg_id events (readInit n)).available_votes = true) ∧
    (∀ pre post, readBreak n (readLoop n ns msg_id pre (readInit n)) = true →
      Client.read_message n ns msg_id (pre ++ post) = Client.read_message n ns msg_id pre) := by
  have hsig := readLoop_sig_iff n ns msg_id events (readInit n)
    (by simp [readInit]) (by simp [readInit])
  refine ⟨?_, ?_, ?_, ?_, ?_⟩
  · intro hq
    rcases Nat.eq_zero_or_pos (readLoop n ns msg_id events (readInit n)).available_votes with
      h0 | h0
    · rw [h0, has_reached_quorum_zero_votes n hn] at hq
      exact absurd hq Bool.false_ne_true
    · obtain ⟨sigs, hsg⟩ := Option.isSome_iff_exists.mp (hsig.1.mpr h0)
      rw [client_read_message_unfold, if_pos hq, hsg]
      rfl
  · intro hq1 hq2
    rcases Nat.eq_zero_or_pos (readLoop n ns msg_id events (readInit n)).unavailable_votes with
      h0 | h0
    · rw [h0, has_reached_quorum_zero_votes n hn] at hq2
      exact absurd hq2 Bool.false_ne_true
    · obtain ⟨sigs, hsg⟩ := Option.isSome_iff_exists.mp (hsig.2.mpr h0)
      rw [client_read_message_unfold, if_neg (by simp [hq1]), if_pos hq2, hsg]
      rfl
  · intro hq1 hq2
    rw [client_read_message_unfold, if_neg (by simp [hq1]), if_neg (by simp [hq2])]
  · intro cert hc
    by_cases hq : has_reached_quorum n
        (readLoop n ns msg_id events (readInit n)).available_votes = true
    · exact hq
    · exfalso
      have hq1 : has_reached_quorum n
          (readLoop n ns msg_id events (readInit n)).available_votes = false := by
        simpa using hq
      by_cases hq2 : has_reached_quorum n
          (readLoop n ns msg_id events (readInit n)).unavailable_votes = true
      · rcases Nat.eq_zero_or_pos
            (readLoop n ns msg_id events (readInit n)).unavailable_votes with h0 | h0
        · rw [h0, has_reached_quorum_zero_votes n hn] at hq2
          exact absurd hq2 Bool.false_ne_true
        · obtain ⟨sigs, hsg⟩ := Option.isSome_iff_exists.mp (hsig.2.mpr h0)
          rw [client_read_message_unfold, if_neg (by simp [hq1]), if_pos hq2, hsg] at hc
          exact ReadResult.noConfusion hc
      · have hq2f : has_reached_quorum n
            (readLoop n ns msg_id events (readInit n)).unavailable_votes = false := by
          simpa using hq2
        rw [client_read_message_unfold, if_neg (by simp [hq1]), if_neg (by simp [hq2f])] at hc
        exact ReadResult.noConfusion hc
  · intro pre post hbreak
    have h0 : readBreak n (readInit n) = false := by
      simp only [readBreak, readInit, has_reached_quorum_zero_votes n hn, Bool.false_or,
        Bool.or_self]
      simp
      omega
    rw [client_read_message_unfold, client_read_message_unfold,
      readLoop_break_stable n ns msg_id pre post (readInit n) h0 hbreak]

theorem c7_read_message_outcome_witness :
    Client.read_message 1 [1] (.messageDigest [1] [2]) [(0, .available ⟨4, [2], 9, true⟩)] =
      .availableR ⟨[4], [2], [9]⟩ := by
  have h := (c7_read_message_outcome 1 [1] (.messageDigest [1] [2])
    [(0, .available ⟨4, [2], 9, true⟩)] (by decide)).1 (by decide)
  exact h.trans (by decide)

/-- `CertifiedRecord::from_records_unchecked`: collects the records'
timestamps, takes the first record's message (`records[0]` — the callers
below always pass a non-empty bucket; the `headD` default models the
otherwise-panicking index), and folds all the signatures into the
aggregate. -/
def CertifiedRecord.from_records_unchecked (records : List Record) : CertifiedRecord :=
  { timestamps := records.map (·.timestamp)
    message := (records.headD ⟨0, [], 0⟩).message
    quorum_signature := records.map (·.signature) }

/-- The state of `Client::subscribe_certified`'s aggregation task: the
`FIFOMap<B256, Vec<Record>>` of capacity 1024 keyed by message digest, and
the certified records sent to the consumer stream so far. -/
structure SubCertState : Type where
  records_by_id : List (Digest × List Record)
  emitted : List CertifiedRecord
  deriving DecidableEq, Repr

/-- One incoming record in `Client::subscribe_certified`'s aggregation
loop: append the record to (or create) the bucket of its message digest;
then, if the bucket size satisfies `has_reached_quorum`, build a
certificate from the bucket and send it to the consumer. -/
def subscribe_certified_step (validators_count : Nat) (ns : ByteStr)
    (st : SubCertState) (record : Record) : SubCertState :=
  let id := record.message_digest ns
  let records_by_id :=
    if (keyLookup st.records_by_id id).isSome then
      st.records_by_id.map (fun kv => if kv.1 = id then (kv.1, kv.2 ++ [record]) else kv)
    else
      fifoInsert 1024 st.records_by_id id [record]
  let records := (keyLookup records_by_id id).getD []
  if has_reached_quorum validators_count records.length then
    { records_by_id := records_by_id
      emitted := st.emitted ++ [CertifiedRecord.from_records_unchecked records] }
  else
    { records_by_id := records_by_id, emitted := st.emitted }

/-- The aggregation task of `Client::subscribe_certified`, run over a
finite prefix of the incoming record stream. -/
def Client.subscribe_certified_run (validators_count : Nat) (ns : ByteStr)
    (stream : List Record) : SubCertState :=
  stream.foldl (subscribe_certified_step validators_count ns)
    { records_by_id := [], emitted := [] }

/-- C4: with `n = 3` validators (quorum threshold `2*3/3 = 2`, checked with
`>=`), three records for the same message digest arriving on the stream
cause TWO certificate emissions — one when the bucket reaches size 2 and
another at size 3, because `has_reached_quorum` keeps holding for every
later bucket size.  The claim (and the repository's own
`test_subscribe_certified_many`) requires exactly one emission per message
digest, at first quorum. -/
theorem c4_subscribe_certified_reemits :
    (Client.subscribe_certified_run 3 [0]
        [⟨1, [7], 11⟩, ⟨2, [7], 12⟩, ⟨3, [7], 13⟩]).emitted =
      [⟨[1, 2], [7], [11, 12]⟩, ⟨[1, 2, 3], [7], [11, 12, 13]⟩] ∧
    ((Client.subscribe_certified_run 3 [0]
        [⟨1, [7], 11⟩, ⟨2, [7], 12⟩, ⟨3, [7], 13⟩]).emitted.map
      CertifiedRecord.message) = [[7], [7]] := by
  refine ⟨by decide, by decide⟩

/-- `common.rs` `SubscriptionError`. -/
inductive SubscriptionError : Type where
  | timeout
  | failedToConnect
  | failedToSubscribe
  deriving DecidableEq, Repr

/-- What `Client::subscribe` hands back to its caller: `Ok(stream)` or
`Err(ClientError::SubscriptionError(e))`. -/
inductive SubscribeOutcome : Type where
  | okStream
  | err (e : SubscriptionError)
  deriving DecidableEq, Repr

/-- Outcome script for the background task's attempt to connect the
subscriber socket to one validator publisher endpoint and subscribe to the
topic. -/
structure PublisherEndpoint : Type where
  connectOk : Bool
  subscribeOk : Bool
  deriving DecidableEq, Repr

/-- The spawned background task of `Client::subscribe`: connects to every
collected publisher endpoint and subscribes to the topic; on the FIRST
failure it logs a warning and returns, silently ending the forwarding task
(so the stream yields nothing).  Otherwise it forwards every publication
that parses as a `Record` (`none` models unparsable bytes; bounded-channel
drops are orthogonal to the claim and not scripted).  Returns the records
delivered to the consumer stream. -/
def subscribeTask (endpoints : List PublisherEndpoint) (incoming : List (Option Record)) :
    List Record :=
  match endpoints with
  | [] => incoming.filterMap id
  | e :: rest =>
    if e.connectOk = false then []
    else if e.subscribeOk = false then []
    else subscribeTask rest incoming

/-- `Client::subscribe`: the response-collection phase only gathers
publisher endpoints (reply errors are logged and skipped), the background
task is spawned, and the function returns `Ok(ReceiverStream)` — its body
has no `Err` return path at all.  Modelled as the pair (caller's result,
records the returned stream yields). -/
def Client.subscribe (endpoints : List PublisherEndpoint) (incoming : List (Option Record)) :
    SubscribeOutcome × List Record :=
  (SubscribeOutcome.okStream, subscribeTask endpoints incoming)

/-- C9 counterexample: when connecting to the (single) validator publisher
fails, `subscribe` still hands the caller `Ok` — and not
`Err(SubscriptionError::FailedToConnect)` as the claim states; the failure
is only visible as a silently empty stream. -/
theorem c9_subscribe_counterexample :
    Client.subscribe [⟨false, true⟩] [some ⟨1, [2], 3⟩] = (SubscribeOutcome.okStream, []) ∧
    (Client.subscribe [⟨false, true⟩] [some ⟨1, [2], 3⟩]).1 ≠
      SubscribeOutcome.err SubscriptionError.failedToConnect := by
  refine ⟨by decide, by decide⟩

theorem subscribeTask_of_failure (endpoints : List PublisherEndpoint)
    (incoming : List (Option Record))
    (h : (endpoints.any fun e => !e.connectOk || !e.subscribeOk) = true) :
    subscribeTask endpoints incoming = [] := by
  induction endpoints with
  | nil => simp at h
  | cons e rest ih =>
    by_cases hc : e.connectOk = false
    · simp only [subscribeTask, if_pos hc]
    · by_cases hs : e.subscribeOk = false
      · simp only [subscribeTask]
        rw [if_neg hc, if_pos hs]
      · simp only [subscribeTask]
        rw [if_neg hc, if_neg hs]
        apply ih
        have hc' : e.connectOk = true := by revert hc; cases e.connectOk <;> simp
        have hs' : e.subscribeOk = true := by revert hs; cases e.subscribeOk <;> simp
        simp only [List.any_cons, hc', hs'] at h
        simpa using h

theorem subscribeTask_of_success (endpoints : List PublisherEndpoint)
    (incoming : List (Option Record))
    (h : (endpoints.all fun e => e.connectOk && e.subscribeOk) = true) :
    subscribeTask endpoints incoming = incoming.filterMap id := by
  induction endpoints with
  | nil => rfl
  | cons e rest ih =>
    simp only [List.all_cons, Bool.and_eq_true] at h
    obtain ⟨⟨hc, hs⟩, hrest⟩ := h
    simp only [subscribeTask]
    rw [if_neg (by rw [hc]; exact Bool.true_eq_false ▸ (by simp)),
      if_neg (by rw [hs]; exact Bool.true_eq_false ▸ (by simp))]
    exact ih hrest

/-- C9 amended: `subscribe` always returns `Ok` to the caller — no
`SubscriptionError` is ever surfaced; a failure to connect to a publisher
or to subscribe to the topic is logged inside the background task, which
returns early, so the stream silently yields nothing; only when every
endpoint connects and subscribes does the stream forward the parsed
records. -/
theorem c9_subscribe_amended (endpoints : List PublisherEndpoint)
    (incoming : List (Option Record)) :
    (Client.subscribe endpoints incoming).1 = SubscribeOutcome.okStream ∧
    ((endpoints.any fun e => !e.connectOk || !e.subscribeOk) = true →
      (Client.subscribe endpoints incoming).2 = []) ∧
    ((endpoints.all fun e => e.connectOk && e.subscribeOk) = true →
      (Client.subscribe endpoints incoming).2 = incoming.filterMap id) :=
  ⟨rfl, subscribeTask_of_failure endpoints incoming, subscribeTask_of_success endpoints incoming⟩

theorem c9_subscribe_amended_witness :
    (Client.subscribe [⟨true, false⟩] [some ⟨1, [2], 3⟩]).2 = [] ∧
    (Client.subscribe [⟨true, true⟩] [some ⟨1, [2], 3⟩, none]).2 = [⟨1, [2], 3⟩] := by
  constructor
  · exact (c9_subscribe_amended [⟨true, false⟩] [some ⟨1, [2], 3⟩]).2.1 (by decide)
  · exact ((c9_subscribe_amended [⟨true, true⟩]
      [some ⟨1, [2], 3⟩, none]).2.2 (by decide)).trans (by decide)
